import Mathlib

/-!
Shallow embedding of the `ropuls/fsm` state-machine engine
(`src/meta.hpp`, `src/fsm.hpp`) and verification of its specification.

State kinds, event kinds and the shared context are C++ types; nominal
type equality (`std::is_same_v`) is modelled by a type parameter with
decidable equality.  Type-level lists (`std::variant` alternative packs)
are modelled as Lean lists.
-/

namespace Fsm

variable {σ ε γ : Type} [DecidableEq σ] [DecidableEq ε]

/-! ### `src/meta.hpp`: order-stable duplicate removal -/

/-- Embeds `detail::remove_duplicates_pack_first<N>` from `src/meta.hpp`:
the element at index `n` is kept (as a one-element pack) exactly when no
earlier index holds an equal element, and dropped (empty pack) otherwise. -/
def remove_duplicates_pack_first (l : List σ) (n : Nat) : List σ :=
  match l.get? n with
  | none => []
  | some x => if x ∈ l.take n then [] else [x]

/-- Embeds `detail::remove_duplicates` from `src/meta.hpp`: the packs kept
for each index of `std::make_index_sequence` are concatenated
(`std::tuple_cat`). -/
def remove_duplicates (l : List σ) : List σ :=
  ((List.range l.length).map (remove_duplicates_pack_first l)).flatten

/-- Stated from the spec's words (§4.1): de-duplication that preserves
first-occurrence order, written as a left fold that appends each element
not seen before.  Used to compare the source's index-based
`remove_duplicates` against the spec. -/
def spec_dedup (l : List σ) : List σ :=
  l.foldl (fun acc x => if x ∈ acc then acc else acc ++ [x]) []

/-- Generalisation of `remove_duplicates` by a set of already-seen
elements, used to relate it to `spec_dedup`. -/
def rd_gen (acc : List σ) (l : List σ) : List σ :=
  ((List.range l.length).map (fun n =>
    match l.get? n with
    | none => []
    | some x => if x ∈ acc ∨ x ∈ l.take n then [] else [x])).flatten

lemma rd_gen_nil_acc (l : List σ) : rd_gen [] l = remove_duplicates l := by
  unfold rd_gen remove_duplicates
  congr 1
  apply List.map_congr_left
  intro n _
  unfold remove_duplicates_pack_first
  cases l.get? n with
  | none => rfl
  | some x => simp

lemma rd_gen_congr (acc₁ acc₂ : List σ) (l : List σ)
    (h : ∀ a, a ∈ acc₁ ↔ a ∈ acc₂) : rd_gen acc₁ l = rd_gen acc₂ l := by
  unfold rd_gen
  congr 1
  apply List.map_congr_left
  intro n _
  cases l.get? n with
  | none => rfl
  | some x =>
    simp only
    refine if_congr (or_congr_left (h x)) rfl rfl

lemma rd_gen_cons (acc : List σ) (x : σ) (xs : List σ) :
    rd_gen acc (x :: xs)
      = (if x ∈ acc then [] else [x]) ++ rd_gen (acc ++ [x]) xs := by
  unfold rd_gen
  rw [List.length_cons, List.range_succ_eq_map]
  rw [List.map_cons, List.map_map, List.flatten_cons]
  have hhead : (match (x :: xs).get? 0 with
      | none => ([] : List σ)
      | some y => if y ∈ acc ∨ y ∈ (x :: xs).take 0 then [] else [y])
      = (if x ∈ acc then [] else [x]) := by
    simp
  rw [hhead]
  congr 1
  congr 1
  apply List.map_congr_left
  intro n _
  simp only [Function.comp]
  cases hg : xs.get? n with
  | none =>
    rw [List.get?_eq_getElem?] at hg
    simp [hg]
  | some y =>
    simp only [List.get?_cons_succ, hg, List.take_succ_cons]
    refine if_congr ?_ rfl rfl
    constructor
    · rintro (h1 | h2)
      · exact Or.inl (List.mem_append.mpr (Or.inl h1))
      · rcases List.mem_cons.mp h2 with h3 | h4
        · exact Or.inl (List.mem_append.mpr (Or.inr (by simp [h3])))
        · exact Or.inr h4
    · rintro (h1 | h2)
      · rcases List.mem_append.mp h1 with h3 | h4
        · exact Or.inl h3
        · exact Or.inr (List.mem_cons.mpr (Or.inl (by simpa using h4)))
      · exact Or.inr (List.mem_cons.mpr (Or.inr h2))

lemma foldl_dedup_eq_rd_gen (l : List σ) :
    ∀ acc : List σ,
      l.foldl (fun acc x => if x ∈ acc then acc else acc ++ [x]) acc
        = acc ++ rd_gen acc l := by
  induction l with
  | nil => intro acc; simp [rd_gen]
  | cons x xs ih =>
    intro acc
    rw [List.foldl_cons, rd_gen_cons]
    by_cases hx : x ∈ acc
    · rw [if_pos hx, if_pos hx, ih acc, List.nil_append]
      have : rd_gen acc xs = rd_gen (acc ++ [x]) xs := by
        apply rd_gen_congr
        intro a
        constructor
        · intro ha; exact List.mem_append.mpr (Or.inl ha)
        · intro ha
          rcases List.mem_append.mp ha with h | h
          · exact h
          · simpa [List.mem_singleton.mp h] using hx
      rw [this]
    · rw [if_neg hx, if_neg hx, ih (acc ++ [x]), List.append_assoc]

lemma remove_duplicates_eq_spec_dedup (l : List σ) :
    remove_duplicates l = spec_dedup l := by
  rw [spec_dedup, foldl_dedup_eq_rd_gen l [], List.nil_append, rd_gen_nil_acc]

lemma mem_spec_dedup_aux (l : List σ) :
    ∀ (acc : List σ) (a : σ),
      (a ∈ l.foldl (fun acc x => if x ∈ acc then acc else acc ++ [x]) acc)
        ↔ (a ∈ acc ∨ a ∈ l) := by
  induction l with
  | nil => intro acc a; simp
  | cons x xs ih =>
    intro acc a
    rw [List.foldl_cons, ih]
    by_cases hx : x ∈ acc
    · rw [if_pos hx]
      constructor
      · rintro (h | h)
        · exact Or.inl h
        · exact Or.inr (List.mem_cons.mpr (Or.inr h))
      · rintro (h | h)
        · exact Or.inl h
        · rcases List.mem_cons.mp h with h1 | h2
          · exact Or.inl (h1 ▸ hx)
          · exact Or.inr h2
    · rw [if_neg hx]
      constructor
      · rintro (h | h)
        · rcases List.mem_append.mp h with h1 | h2
          · exact Or.inl h1
          · exact Or.inr (List.mem_cons.mpr (Or.inl (List.mem_singleton.mp h2)))
        · exact Or.inr (List.mem_cons.mpr (Or.inr h))
      · rintro (h | h)
        · exact Or.inl (List.mem_append.mpr (Or.inl h))
        · rcases List.mem_cons.mp h with h1 | h2
          · exact Or.inl (List.mem_append.mpr (Or.inr (by simp [h1])))
          · exact Or.inr h2

lemma mem_remove_duplicates (l : List σ) (a : σ) :
    a ∈ remove_duplicates l ↔ a ∈ l := by
  rw [remove_duplicates_eq_spec_dedup, spec_dedup, mem_spec_dedup_aux]
  simp

lemma nodup_spec_dedup_aux (l : List σ) :
    ∀ acc : List σ, acc.Nodup →
      (l.foldl (fun acc x => if x ∈ acc then acc else acc ++ [x]) acc).Nodup := by
  induction l with
  | nil => intro acc h; simpa using h
  | cons x xs ih =>
    intro acc h
    rw [List.foldl_cons]
    by_cases hx : x ∈ acc
    · rw [if_pos hx]; exact ih acc h
    · rw [if_neg hx]
      apply ih
      rw [List.nodup_append]
      exact ⟨h, List.nodup_singleton x, by
        intro a ha hb
        rw [List.mem_singleton] at hb
        exact hx (hb ▸ ha)⟩

lemma nodup_remove_duplicates (l : List σ) : (remove_duplicates l).Nodup := by
  rw [remove_duplicates_eq_spec_dedup, spec_dedup]
  exact nodup_spec_dedup_aux l [] List.nodup_nil

/-! ### `src/fsm.hpp`: transitions, matcher, exhaustiveness checker -/

/-- Embeds `struct transition<Entry, Event, Next>` from `src/fsm.hpp`. -/
structure transition (σ ε : Type) where
  entry_state : σ
  event : ε
  next_state : σ
  deriving DecidableEq

/-- Embeds `equals<T, U, V>()`: the transition's entry state and event
both equal the queried pair (nominal type equality). -/
def equals (t : transition σ ε) (s : σ) (e : ε) : Bool :=
  decide (t.entry_state = s) && decide (t.event = e)

/-- Embeds `match<VariantType, U, V, index>()` from `src/fsm.hpp`, in
list-recursive form (`match` is a Lean keyword): the index of the first
transition whose `(entry_state, event)` equals the query, or the table
size when none matches. -/
def matchIdx (T : List (transition σ ε)) (s : σ) (e : ε) : Nat :=
  match T with
  | [] => 0
  | t :: ts => if equals t s e then 0 else matchIdx ts s e + 1

/-- Embeds `extract_states`: every `entry_state` in pack order, then
every `next_state` in pack order. -/
def extract_states (T : List (transition σ ε)) : List σ :=
  T.map transition.entry_state ++ T.map transition.next_state

/-- Embeds `extract_events`: every `event` in pack order. -/
def extract_events (T : List (transition σ ε)) : List ε :=
  T.map transition.event

/-- Embeds the member alias `states` of `state_machine`: duplicates
removed from the extracted state list. -/
def states (T : List (transition σ ε)) : List σ :=
  remove_duplicates (extract_states T)

/-- Embeds the member alias `events` of `state_machine`. -/
def events (T : List (transition σ ε)) : List ε :=
  remove_duplicates (extract_events T)

/-- Embeds `detail::has_transition<State, Event, TransitionTable>()`. -/
def has_transition (s : σ) (e : ε) : List (transition σ ε) → Bool
  | [] => false
  | t :: ts => if equals t s e then true else has_transition s e ts

/-- Embeds `detail::check_state_complete<State, EventList, TransitionTable>()`:
terminal states pass unconditionally; otherwise every event in the list
needs a transition out of `s`.  The terminal marking
(`is_terminal_state` template specialisations) is the function `term`. -/
def check_state_complete (term : σ → Bool) (s : σ) (T : List (transition σ ε)) :
    List ε → Bool
  | [] => true
  | e :: es =>
    if term s then true
    else if has_transition s e T then check_state_complete term s T es else false

/-- Embeds `detail::check_all_transitions<StateList, EventList, TransitionTable>()`. -/
def check_all_transitions (term : σ → Bool) :
    List σ → List ε → List (transition σ ε) → Bool
  | [], _, _ => true
  | s :: ss, es, T =>
    if check_state_complete term s T es then check_all_transitions term ss es T
    else false

/-- Embeds the member `state_count` of `state_machine`
(`std::variant_size_v<TransitionTable>`, the number of transitions). -/
def state_count (T : List (transition σ ε)) : Nat :=
  T.length

/-- The two `static_assert` gates of `state_machine`: construction
succeeds exactly when `state_count > 1` and
`detail::check_all_transitions<states, events, TransitionTable>()` holds. -/
def construction_ok (term : σ → Bool) (T : List (transition σ ε)) : Bool :=
  decide (state_count T > 1) && check_all_transitions term (states T) (events T) T

/-! ### Lemmas about the matcher -/

lemma equals_false_not (t : transition σ ε) (s : σ) (e : ε)
    (h : equals t s e = false) : ¬(equals t s e = true) := by
  rw [h]; exact Bool.false_ne_true

lemma matchIdx_le_length (T : List (transition σ ε)) (s : σ) (e : ε) :
    matchIdx T s e ≤ T.length := by
  induction T with
  | nil => simp [matchIdx]
  | cons t ts ih =>
    rw [matchIdx]
    cases heq : equals t s e
    · rw [if_neg Bool.false_ne_true, List.length_cons]
      exact Nat.succ_le_succ ih
    · rw [if_pos rfl]
      exact Nat.zero_le _

lemma matchIdx_eq_length_iff (T : List (transition σ ε)) (s : σ) (e : ε) :
    matchIdx T s e = T.length ↔ ∀ t ∈ T, equals t s e = false := by
  induction T with
  | nil => simp [matchIdx]
  | cons t ts ih =>
    rw [matchIdx]
    cases heq : equals t s e
    · rw [if_neg Bool.false_ne_true, List.length_cons,
        Nat.add_right_cancel_iff, ih]
      constructor
      · intro hall u hu
        rcases List.mem_cons.mp hu with h1 | h2
        · rw [h1]; exact heq
        · exact hall u h2
      · intro hall u hu
        exact hall u (List.mem_cons.mpr (Or.inr hu))
    · rw [if_pos rfl, List.length_cons]
      constructor
      · intro habs
        exact absurd habs.symm (Nat.succ_ne_zero _)
      · intro hall
        have h2 := hall t (List.mem_cons_self t ts)
        rw [heq] at h2
        cases h2

lemma equals_get_matchIdx (T : List (transition σ ε)) (s : σ) (e : ε)
    (h : matchIdx T s e < T.length) :
    equals (T.get ⟨matchIdx T s e, h⟩) s e = true := by
  induction T with
  | nil => simp [matchIdx] at h
  | cons t ts ih =>
    cases heq : equals t s e
    · have h1 : matchIdx (t :: ts) s e = matchIdx ts s e + 1 := by
        rw [matchIdx, if_neg (equals_false_not t s e heq)]
      revert h
      rw [h1]
      intro h
      have h2 : matchIdx ts s e < ts.length := Nat.lt_of_succ_lt_succ h
      simpa using ih h2
    · have h0 : matchIdx (t :: ts) s e = 0 := by
        rw [matchIdx, if_pos heq]
      revert h
      rw [h0]
      intro h
      simpa using heq

lemma equals_get_lt_matchIdx (T : List (transition σ ε)) (s : σ) (e : ε)
    (j : Nat) (hj : j < T.length) (hlt : j < matchIdx T s e) :
    equals (T.get ⟨j, hj⟩) s e = false := by
  induction T generalizing j with
  | nil => simp at hj
  | cons t ts ih =>
    cases heq : equals t s e
    · have h1 : matchIdx (t :: ts) s e = matchIdx ts s e + 1 := by
        rw [matchIdx, if_neg (equals_false_not t s e heq)]
      rw [h1] at hlt
      cases j with
      | zero => simpa using heq
      | succ j =>
        have hj2 : j < ts.length := Nat.lt_of_succ_lt_succ hj
        have hlt2 : j < matchIdx ts s e := Nat.lt_of_succ_lt_succ hlt
        simpa using ih j hj2 hlt2
    · have h0 : matchIdx (t :: ts) s e = 0 := by
        rw [matchIdx, if_pos heq]
      rw [h0] at hlt
      exact absurd hlt (Nat.not_lt_zero j)

/-! ### Lemmas about the exhaustiveness checker -/

lemma equals_iff (t : transition σ ε) (s : σ) (e : ε) :
    equals t s e = true ↔ t.entry_state = s ∧ t.event = e := by
  simp [equals]

lemma has_transition_iff (s : σ) (e : ε) (T : List (transition σ ε)) :
    has_transition s e T = true
      ↔ ∃ t ∈ T, t.entry_state = s ∧ t.event = e := by
  induction T with
  | nil => simp [has_transition]
  | cons t ts ih =>
    rw [has_transition]
    cases heq : equals t s e
    · rw [if_neg Bool.false_ne_true, ih]
      constructor
      · rintro ⟨u, hu, hue⟩
        exact ⟨u, List.mem_cons.mpr (Or.inr hu), hue⟩
      · rintro ⟨u, hu, hue⟩
        rcases List.mem_cons.mp hu with h1 | h2
        · have h3 : equals t s e = true := (equals_iff t s e).mpr (h1 ▸ hue)
          rw [heq] at h3
          cases h3
        · exact ⟨u, h2, hue⟩
    · rw [if_pos rfl]
      constructor
      · intro _
        exact ⟨t, List.mem_cons_self t ts, (equals_iff t s e).mp heq⟩
      · intro _
        rfl

lemma check_state_complete_iff (term : σ → Bool) (s : σ)
    (T : List (transition σ ε)) (es : List ε) :
    check_state_complete term s T es = true
      ↔ (term s = true ∨ ∀ e ∈ es, has_transition s e T = true) := by
  induction es with
  | nil => simp [check_state_complete]
  | cons e es ih =>
    rw [check_state_complete]
    cases hterm : term s
    · rw [if_neg Bool.false_ne_true]
      cases htr : has_transition s e T
      · rw [if_neg Bool.false_ne_true]
        constructor
        · intro habs; cases habs
        · rintro (h1 | h2)
          · cases h1
          · have h3 := h2 e (List.mem_cons_self e es)
            rw [htr] at h3
            cases h3
      · rw [if_pos rfl, ih, hterm]
        constructor
        · rintro (h1 | h2)
          · cases h1
          · refine Or.inr fun e₂ he₂ => ?_
            rcases List.mem_cons.mp he₂ with h3 | h4
            · rw [h3]; exact htr
            · exact h2 e₂ h4
        · rintro (h1 | h2)
          · cases h1
          · exact Or.inr fun e₂ he₂ => h2 e₂ (List.mem_cons.mpr (Or.inr he₂))
    · rw [if_pos rfl]
      exact ⟨fun _ => Or.inl rfl, fun _ => rfl⟩

lemma check_all_transitions_iff (term : σ → Bool) (ss : List σ) (es : List ε)
    (T : List (transition σ ε)) :
    check_all_transitions term ss es T = true
      ↔ ∀ s ∈ ss, term s = false →
          ∀ e ∈ es, ∃ t ∈ T, t.entry_state = s ∧ t.event = e := by
  induction ss with
  | nil => simp [check_all_transitions]
  | cons s ss ih =>
    rw [check_all_transitions]
    cases hc : check_state_complete term s T es
    · rw [if_neg Bool.false_ne_true]
      constructor
      · intro habs; cases habs
      · intro hall
        exfalso
        have hcc : check_state_complete term s T es = true := by
          rw [check_state_complete_iff]
          cases hterm : term s
          · refine Or.inr fun e he => ?_
            rw [has_transition_iff]
            exact hall s (List.mem_cons_self s ss) hterm e he
          · exact Or.inl rfl
        rw [hc] at hcc
        cases hcc
    · rw [if_pos rfl, ih]
      constructor
      · intro hall s₂ hs₂ hterm e he
        rcases List.mem_cons.mp hs₂ with h1 | h2
        · subst h1
          rcases (check_state_complete_iff term s₂ T es).mp hc with ht | hh
          · rw [hterm] at ht; cases ht
          · exact (has_transition_iff s₂ e T).mp (hh e he)
        · exact hall s₂ h2 hterm e he
      · intro hall s₂ hs₂ hterm e he
        exact hall s₂ (List.mem_cons.mpr (Or.inr hs₂)) hterm e he

/-! ### Lemmas about the derived state and event sets -/

lemma mem_states_iff (T : List (transition σ ε)) (a : σ) :
    a ∈ states T ↔ ∃ t ∈ T, t.entry_state = a ∨ t.next_state = a := by
  rw [states, mem_remove_duplicates, extract_states]
  simp only [List.mem_append, List.mem_map]
  constructor
  · rintro (⟨t, ht, he⟩ | ⟨t, ht, he⟩)
    · exact ⟨t, ht, Or.inl he⟩
    · exact ⟨t, ht, Or.inr he⟩
  · rintro ⟨t, ht, he | he⟩
    · exact Or.inl ⟨t, ht, he⟩
    · exact Or.inr ⟨t, ht, he⟩

lemma mem_events_iff (T : List (transition σ ε)) (e : ε) :
    e ∈ events T ↔ ∃ t ∈ T, t.event = e := by
  rw [events, mem_remove_duplicates, extract_events]
  simp

lemma next_state_mem_states (T : List (transition σ ε)) (t : transition σ ε)
    (h : t ∈ T) : t.next_state ∈ states T :=
  (mem_states_iff T t.next_state).mpr ⟨t, h, Or.inr rfl⟩


/-! ### The engine (`class state_machine`): live state, dispatch loop

A live state value (`std::variant` of state structs) is its kind plus the
data the state struct holds; every state struct of the program holds the
shared context it was constructed from (`next_state_t(m_ctx)`), so a state
value is modelled as a kind paired with that context.  A state's action
(`operator()(event, callback)`) is domain code outside the engine; it is
modelled by a parameter `act` giving the list of events the action passes
to its continuation, in order.  Dispatch recursion is bounded by fuel;
`none` means the fuel ran out or a C++ runtime failure
(`m_state.value()` on an empty optional throws `std::bad_optional_access`).
-/

/-- A live state value: its kind plus the context it was constructed from. -/
structure StateVal (σ γ : Type) where
  kind : σ
  ctx : γ
  deriving DecidableEq

/-- The data members of `state_machine`: `m_ctx`, `m_state`, `m_cb`.
`m_cb` (a `std::function`) is modelled by whether it holds a callback. -/
structure Machine (σ γ : Type) where
  m_ctx : γ
  m_state : Option (StateVal σ γ)
  m_cb : Bool
  deriving DecidableEq

/-- Embeds the constructor `state_machine(Context c) : m_ctx(c)`:
`m_state` is a default-constructed empty optional and `m_cb` a
default-constructed (empty) `std::function`. -/
def state_machine_init (c : γ) : Machine σ γ :=
  { m_ctx := c, m_state := none, m_cb := false }

/-- Models a state's action invoking its continuation once per emitted
event: each invocation re-enters the engine (`step` below is instantiated
with `push`), and the results are chained left to right, counting the
completion-callback invocations.  `none` propagates fuel exhaustion. -/
def chain (step : Machine σ γ → ε → Option (Machine σ γ × Nat)) :
    Machine σ γ → List ε → Option (Machine σ γ × Nat)
  | m, [] => some (m, 0)
  | m, e :: es =>
    match step m e with
    | none => none
    | some (m₁, n) =>
      match chain step m₁ es with
      | none => none
      | some (m₂, n₂) => some (m₂, n + n₂)

/-- Embeds `state_machine::push(Event evt)` together with the
`state_machine::process` it calls.  The current live state is read
(`std::visit` on `m_state.value()`); if the table has a transition for
`(current kind, event)` (`variant_size > match<...>`), the `next_state`
of the first matching transition is constructed freshly from `m_ctx`
alone and stored into `m_state` (`std::exchange`), and then the new
state's action runs, each continuation invocation re-entering `push`
(modelled by `chain` on the action's emitted events).  Otherwise the
dispatch only logs `no transition for: ...` and invokes `m_cb` if it is
set; the machine is unchanged.  The returned number counts invocations
of the completion callback `m_cb`. -/
def push (T : List (transition σ ε)) (act : σ → γ → ε → List ε) :
    Nat → Machine σ γ → ε → Option (Machine σ γ × Nat)
  | 0, _, _ => none
  | fuel + 1, m, e =>
    match m.m_state with
    | none => none
    | some sv =>
      if h : matchIdx T sv.kind e < T.length then
        chain (fun m₂ e₂ => push T act fuel m₂ e₂)
          { m with m_state := some ⟨(T.get ⟨matchIdx T sv.kind e, h⟩).next_state, m.m_ctx⟩ }
          (act (T.get ⟨matchIdx T sv.kind e, h⟩).next_state m.m_ctx e)
      else
        some (m, if m.m_cb then 1 else 0)

/-- Embeds `state_machine::process(current_state, evt)` for a pair with a
matching transition: construct the first matching transition's
`next_state` from `m_ctx` alone, exchange it into `m_state`, then invoke
the new state's action with the event and a continuation that re-enters
`push`. -/
def process (T : List (transition σ ε)) (act : σ → γ → ε → List ε)
    (fuel : Nat) (m : Machine σ γ) (k : σ) (e : ε)
    (h : matchIdx T k e < T.length) : Option (Machine σ γ × Nat) :=
  chain (fun m₂ e₂ => push T act fuel m₂ e₂)
    { m with m_state := some ⟨(T.get ⟨matchIdx T k e, h⟩).next_state, m.m_ctx⟩ }
    (act (T.get ⟨matchIdx T k e, h⟩).next_state m.m_ctx e)

/-- Embeds `state_machine::start<StartState>(args...)`: the start state
must be an alternative of the derived `states` variant (otherwise
`m_state = StartState(...)` and `std::get<StartState>` do not compile,
modelled as `none`); the start state value is stored into `m_state` and
its action is invoked with a continuation that re-enters `push`
(`actStart` gives the events the action passes to the continuation; the
extra construction arguments do not reach the engine and are omitted). -/
def start (T : List (transition σ ε)) (act : σ → γ → ε → List ε)
    (actStart : γ → List ε) (fuel : Nat) (s₀ : σ) (m : Machine σ γ) :
    Option (Machine σ γ × Nat) :=
  if s₀ ∈ states T then
    chain (fun m₂ e₂ => push T act fuel m₂ e₂)
      { m with m_state := some ⟨s₀, m.m_ctx⟩ }
      (actStart m.m_ctx)
  else none

/-! ### The Mermaid export (`print_mermaid`)

Each `printf` line is modelled as one element of an output list; the
fixed header lines, the hardcoded `[*] --> start` marker and the closing
fence are distinguished constructors, an edge line
`from -->|event| to` carries the rendered transition, and a terminal
marker line `s --> [*]` carries the marked state. -/

/-- One printed line of the Mermaid export. -/
inductive MermaidLine (σ ε : Type) where
  | header
  | init_marker
  | edge (a : σ) (e : ε) (b : σ)
  | terminal_mark (s : σ)
  | footer
  deriving DecidableEq

/-- Embeds `print_mermaid_transitions`: one `from -->|event| to` line per
table entry, in declaration order. -/
def print_mermaid_transitions (T : List (transition σ ε)) :
    List (MermaidLine σ ε) :=
  T.map (fun t => MermaidLine.edge t.entry_state t.event t.next_state)

/-- Embeds `print_terminal_states_mermaid`: one `s --> [*]` line for each
state of the derived `states` list marked terminal, in order. -/
def print_terminal_states_mermaid (term : σ → Bool) (ss : List σ) :
    List (MermaidLine σ ε) :=
  (ss.filter term).map MermaidLine.terminal_mark

/-- Embeds `print_mermaid`: the fence and diagram header, the hardcoded
`[*] --> start` line, the transition lines, the terminal markers (guarded
by `variant_size_v<states> > 0`), and the closing fence. -/
def print_mermaid (term : σ → Bool) (T : List (transition σ ε)) :
    List (MermaidLine σ ε) :=
  [MermaidLine.header, MermaidLine.init_marker]
    ++ print_mermaid_transitions T
    ++ (if 0 < (states T).length then print_terminal_states_mermaid term (states T)
        else [])
    ++ [MermaidLine.footer]


/-! ### Unfolding lemmas for the dispatch loop -/

lemma push_zero (T : List (transition σ ε)) (act : σ → γ → ε → List ε)
    (m : Machine σ γ) (e : ε) : push T act 0 m e = none := rfl

lemma push_succ_unstarted (T : List (transition σ ε)) (act : σ → γ → ε → List ε)
    (fuel : Nat) (m : Machine σ γ) (e : ε) (hm : m.m_state = none) :
    push T act (fuel + 1) m e = none := by
  simp [push, hm]

lemma push_succ_found (T : List (transition σ ε)) (act : σ → γ → ε → List ε)
    (fuel : Nat) (m : Machine σ γ) (e : ε) (sv : StateVal σ γ)
    (hm : m.m_state = some sv) (h : matchIdx T sv.kind e < T.length) :
    push T act (fuel + 1) m e = process T act fuel m sv.kind e h := by
  simp only [push, hm]
  rw [dif_pos h]
  rfl

lemma push_succ_nomatch (T : List (transition σ ε)) (act : σ → γ → ε → List ε)
    (fuel : Nat) (m : Machine σ γ) (e : ε) (sv : StateVal σ γ)
    (hm : m.m_state = some sv) (h : ¬ matchIdx T sv.kind e < T.length) :
    push T act (fuel + 1) m e = some (m, if m.m_cb then 1 else 0) := by
  simp only [push, hm]
  rw [dif_neg h]

lemma chain_nil (step : Machine σ γ → ε → Option (Machine σ γ × Nat))
    (m : Machine σ γ) : chain step m [] = some (m, 0) := rfl

lemma chain_cons (step : Machine σ γ → ε → Option (Machine σ γ × Nat))
    (m : Machine σ γ) (e : ε) (es : List ε) :
    chain step m (e :: es)
      = match step m e with
        | none => none
        | some (m₁, n) =>
          match chain step m₁ es with
          | none => none
          | some (m₂, n₂) => some (m₂, n + n₂) := rfl

/-- Any property of machines preserved by one engine step is preserved by
the whole continuation chain of an action. -/
lemma chain_pres (P : Machine σ γ → Prop)
    (step : Machine σ γ → ε → Option (Machine σ γ × Nat))
    (hstep : ∀ m e r, P m → step m e = some r → P r.1) :
    ∀ (m : Machine σ γ) (es : List ε) r,
      P m → chain step m es = some r → P r.1 := by
  intro m es
  induction es generalizing m with
  | nil =>
    intro r hP hc
    rw [chain_nil] at hc
    cases hc
    exact hP
  | cons e es ih =>
    intro r hP hc
    rw [chain_cons] at hc
    split at hc
    · cases hc
    · rename_i m₁ n hs
      split at hc
      · cases hc
      · rename_i m₂ n₂ hcc
        cases hc
        exact ih m₁ (m₂, n₂) (hstep m e (m₁, n) hP hs) hcc

/-- If each step keeps `m_cb` and invokes no callback when `m_cb` is
empty, so does the whole continuation chain. -/
lemma chain_cb (step : Machine σ γ → ε → Option (Machine σ γ × Nat))
    (hstep : ∀ m e r, step m e = some r →
      r.1.m_cb = m.m_cb ∧ (m.m_cb = false → r.2 = 0)) :
    ∀ (m : Machine σ γ) (es : List ε) r,
      chain step m es = some r →
        r.1.m_cb = m.m_cb ∧ (m.m_cb = false → r.2 = 0) := by
  intro m es
  induction es generalizing m with
  | nil =>
    intro r hc
    rw [chain_nil] at hc
    cases hc
    exact ⟨rfl, fun _ => rfl⟩
  | cons e es ih =>
    intro r hc
    rw [chain_cons] at hc
    split at hc
    · cases hc
    · rename_i m₁ n hs
      split at hc
      · cases hc
      · rename_i m₂ n₂ hcc
        cases hc
        obtain ⟨hcb₁, hn₁⟩ := hstep m e (m₁, n) hs
        obtain ⟨hcb₂, hn₂⟩ := ih m₁ (m₂, n₂) hcc
        refine ⟨hcb₂.trans hcb₁, fun hfalse => ?_⟩
        have h₁ : n = 0 := hn₁ hfalse
        have h₂ : n₂ = 0 := hn₂ (hcb₁.trans hfalse)
        simp [h₁, h₂]

/-- The machine holds exactly one live state value, of a kind that is an
alternative of the derived `states` variant. -/
def live_ok (T : List (transition σ ε)) (m : Machine σ γ) : Prop :=
  ∃ sv : StateVal σ γ, m.m_state = some sv ∧ sv.kind ∈ states T

lemma push_live (T : List (transition σ ε)) (act : σ → γ → ε → List ε) :
    ∀ (fuel : Nat) (m : Machine σ γ) (e : ε) r,
      live_ok T m → push T act fuel m e = some r → live_ok T r.1 := by
  intro fuel
  induction fuel with
  | zero =>
    intro m e r _ hp
    rw [push_zero] at hp
    cases hp
  | succ fuel ih =>
    intro m e r hl hp
    obtain ⟨sv, hsv, hkind⟩ := hl
    by_cases h : matchIdx T sv.kind e < T.length
    · rw [push_succ_found T act fuel m e sv hsv h] at hp
      refine chain_pres (live_ok T) _ (fun m₂ e₂ r₂ hP hp₂ => ih m₂ e₂ r₂ hP hp₂)
        _ _ r ?_ hp
      exact ⟨_, rfl, next_state_mem_states T _ (T.get_mem _ _)⟩
    · rw [push_succ_nomatch T act fuel m e sv hsv h] at hp
      cases hp
      exact ⟨sv, hsv, hkind⟩

lemma push_cb (T : List (transition σ ε)) (act : σ → γ → ε → List ε) :
    ∀ (fuel : Nat) (m : Machine σ γ) (e : ε) r,
      push T act fuel m e = some r →
        r.1.m_cb = m.m_cb ∧ (m.m_cb = false → r.2 = 0) := by
  intro fuel
  induction fuel with
  | zero =>
    intro m e r hp
    rw [push_zero] at hp
    cases hp
  | succ fuel ih =>
    intro m e r hp
    cases hm : m.m_state with
    | none =>
      rw [push_succ_unstarted T act fuel m e hm] at hp
      cases hp
    | some sv =>
      by_cases h : matchIdx T sv.kind e < T.length
      · rw [push_succ_found T act fuel m e sv hm h] at hp
        have := chain_cb (fun m₂ e₂ => push T act fuel m₂ e₂)
          (fun m₂ e₂ r₂ hp₂ => ih m₂ e₂ r₂ hp₂) _ _ r hp
        simpa using this
      · rw [push_succ_nomatch T act fuel m e sv hm h] at hp
        cases hp
        refine ⟨rfl, fun hfalse => ?_⟩
        rw [hfalse]
        rfl


/-! ### Concrete instantiation (the demo machine of `src/fsm.cpp`)

State kinds: 0 = `start`, 1 = `connecting`, 2 = `connected`, 3 = `failed`.
Event kinds: 0 = `success<sock>`, 1 = `exception`.  The table mirrors the
`transitions` variant of `src/fsm.cpp`; `connected` and `failed` carry
`is_terminal_state` specialisations (`disconnected` never enters the
table). -/

def demo_table : List (transition Nat Nat) :=
  [⟨0, 0, 1⟩, ⟨0, 1, 3⟩, ⟨1, 0, 2⟩, ⟨1, 1, 3⟩, ⟨2, 1, 3⟩]

def demo_terminal : Nat → Bool := fun s => s == 2 || s == 3

/-- Actions that emit no follow-up events, for concrete runs. -/
def demo_act : Nat → Nat → Nat → List Nat := fun _ _ _ => []

/-- A machine whose live state is the terminal `failed` (kind 3). -/
def demo_machine_failed : Machine Nat Nat := ⟨0, some ⟨3, 0⟩, false⟩

/-- A machine whose live state is `start` (kind 0). -/
def demo_machine_start : Machine Nat Nat := ⟨0, some ⟨0, 0⟩, false⟩

/-! ### The claims -/

/-- C1: `detail::check_all_transitions<States, Events, TransitionTable>()`
returns true iff every non-terminal derived state has, for every derived
event, at least one transition out of it in the table; engine
construction (the `static_assert` gates) succeeds exactly for tables
that satisfy this together with the size gate, and fails for any table
missing such a pair. -/
theorem check_all_transitions_iff_coverage (term : σ → Bool)
    (T : List (transition σ ε)) :
    (check_all_transitions term (states T) (events T) T = true
      ↔ ∀ s ∈ states T, term s = false →
          ∀ e ∈ events T, ∃ t ∈ T, t.entry_state = s ∧ t.event = e)
    ∧ (construction_ok term T = true
      ↔ (1 < T.length ∧ ∀ s ∈ states T, term s = false →
          ∀ e ∈ events T, ∃ t ∈ T, t.entry_state = s ∧ t.event = e)) := by
  constructor
  · exact check_all_transitions_iff term (states T) (events T) T
  · rw [construction_ok, Bool.and_eq_true, decide_eq_true_eq, state_count,
      check_all_transitions_iff]

theorem check_all_transitions_iff_coverage_witness :
    construction_ok demo_terminal demo_table = true :=
  (check_all_transitions_iff_coverage demo_terminal demo_table).2.mpr
    ⟨by decide, by decide⟩

/-- C2: `match<T, S, E>()` returns the index of the first transition in
declaration order whose `(entry_state, event)` pair equals `(S, E)`, and
the table size (the not-found sentinel) when none matches; being a pure
function of the table and the query, the result cannot depend on query
order or repetition. -/
theorem match_first_declared (T : List (transition σ ε)) (s : σ) (e : ε) :
    matchIdx T s e ≤ T.length
    ∧ (∀ h : matchIdx T s e < T.length,
        (T.get ⟨matchIdx T s e, h⟩).entry_state = s
          ∧ (T.get ⟨matchIdx T s e, h⟩).event = e)
    ∧ (∀ j (hj : j < T.length), j < matchIdx T s e →
        ¬((T.get ⟨j, hj⟩).entry_state = s ∧ (T.get ⟨j, hj⟩).event = e))
    ∧ (matchIdx T s e = T.length
        ↔ ∀ t ∈ T, ¬(t.entry_state = s ∧ t.event = e)) := by
  refine ⟨matchIdx_le_length T s e, ?_, ?_, ?_⟩
  · intro h
    exact (equals_iff _ s e).mp (equals_get_matchIdx T s e h)
  · intro j hj hlt habs
    have h1 := equals_get_lt_matchIdx T s e j hj hlt
    have h2 := (equals_iff _ s e).mpr habs
    rw [h1] at h2
    cases h2
  · rw [matchIdx_eq_length_iff]
    constructor
    · intro hall t ht habs
      have h2 := hall t ht
      have h3 := (equals_iff t s e).mpr habs
      rw [h2] at h3
      cases h3
    · intro hall t ht
      cases h2 : equals t s e
      · rfl
      · exact absurd ((equals_iff t s e).mp h2) (hall t ht)

theorem match_first_declared_witness :
    matchIdx demo_table 0 1 ≤ demo_table.length
    ∧ ((demo_table.get ⟨matchIdx demo_table 0 1, by decide⟩).entry_state = 0
        ∧ (demo_table.get ⟨matchIdx demo_table 0 1, by decide⟩).event = 1) :=
  ⟨(match_first_declared demo_table 0 1).1,
   (match_first_declared demo_table 0 1).2.1 (by decide)⟩

/-- C3: a dispatch (`push`) for which the current live state has no
matching transition is a no-op: it returns normally, leaves the machine
(in particular `m_state`) exactly as it was, and invokes the optional
completion callback at most once. -/
theorem push_no_transition_is_noop (T : List (transition σ ε))
    (act : σ → γ → ε → List ε) (fuel : Nat) (m : Machine σ γ) (e : ε)
    (sv : StateVal σ γ) (hsv : m.m_state = some sv)
    (hnm : matchIdx T sv.kind e = T.length) :
    push T act (fuel + 1) m e = some (m, if m.m_cb then 1 else 0)
    ∧ (if m.m_cb then 1 else 0) ≤ 1 := by
  constructor
  · refine push_succ_nomatch T act fuel m e sv hsv ?_
    rw [hnm]
    exact lt_irrefl T.length
  · cases m.m_cb <;> simp

theorem push_no_transition_is_noop_witness :
    push demo_table demo_act 1 demo_machine_failed 0
      = some (demo_machine_failed, 0) :=
  (push_no_transition_is_noop demo_table demo_act 0 demo_machine_failed 0
    ⟨3, 0⟩ rfl (by decide)).1

/-- C4: when `push` finds a matching transition it runs `process`: the
transition's `next_state` is constructed freshly from the shared context
alone, stored into `m_state` (discarding the previous value) before the
new state's action is invoked, and the action then runs with the event
and a continuation that re-enters `push`; consequently the result does
not depend on the previous live state value beyond its kind. -/
theorem process_fresh_replacement (T : List (transition σ ε))
    (act : σ → γ → ε → List ε) (fuel : Nat) (m : Machine σ γ) (e : ε)
    (sv : StateVal σ γ) (hsv : m.m_state = some sv)
    (h : matchIdx T sv.kind e < T.length) :
    push T act (fuel + 1) m e = process T act fuel m sv.kind e h
    ∧ process T act fuel m sv.kind e h
        = chain (fun m₂ e₂ => push T act fuel m₂ e₂)
            { m with m_state := some ⟨(T.get ⟨matchIdx T sv.kind e, h⟩).next_state, m.m_ctx⟩ }
            (act (T.get ⟨matchIdx T sv.kind e, h⟩).next_state m.m_ctx e)
    ∧ (∀ (m₂ : Machine σ γ) (sv₂ : StateVal σ γ),
        m₂.m_ctx = m.m_ctx → m₂.m_cb = m.m_cb → m₂.m_state = some sv₂ →
        sv₂.kind = sv.kind →
        push T act (fuel + 1) m₂ e = push T act (fuel + 1) m e) := by
  refine ⟨push_succ_found T act fuel m e sv hsv h, rfl, ?_⟩
  intro m₂ sv₂ hctx hcb hsv₂ hkind
  have h₂ : matchIdx T sv₂.kind e < T.length := by rw [hkind]; exact h
  have hfin : (⟨matchIdx T sv₂.kind e, h₂⟩ : Fin T.length)
      = ⟨matchIdx T sv.kind e, h⟩ := by
    apply Fin.ext
    show matchIdx T sv₂.kind e = matchIdx T sv.kind e
    rw [hkind]
  rw [push_succ_found T act fuel m₂ e sv₂ hsv₂ h₂,
    push_succ_found T act fuel m e sv hsv h]
  unfold process
  rw [hfin, hctx, hcb]

theorem process_fresh_replacement_witness :
    push demo_table demo_act 1 demo_machine_start 0
      = process demo_table demo_act 0 demo_machine_start 0 0 (by decide) :=
  (process_fresh_replacement demo_table demo_act 0 demo_machine_start 0
    ⟨0, 0⟩ rfl (by decide)).1


/-- C5: after `start` and after any dispatch (including chained
continuation events), the engine holds exactly one live state value —
`m_state` is populated with exactly one alternative — whose kind is a
member of the derived `states`. -/
theorem single_live_state (T : List (transition σ ε))
    (act : σ → γ → ε → List ε) :
    (∀ (actStart : γ → List ε) (fuel : Nat) (s₀ : σ) (m : Machine σ γ) r,
        start T act actStart fuel s₀ m = some r → live_ok T r.1)
    ∧ (∀ (fuel : Nat) (m : Machine σ γ) (e : ε) r,
        live_ok T m → push T act fuel m e = some r → live_ok T r.1)
    ∧ (∀ (fuel : Nat) (m : Machine σ γ) (es : List ε) r,
        live_ok T m →
        chain (fun m₂ e₂ => push T act fuel m₂ e₂) m es = some r →
        live_ok T r.1) := by
  refine ⟨?_, push_live T act, ?_⟩
  · intro actStart fuel s₀ m r hs
    rw [start] at hs
    by_cases hmem : s₀ ∈ states T
    · rw [if_pos hmem] at hs
      refine chain_pres (live_ok T) _
        (fun m₂ e₂ r₂ hP hp₂ => push_live T act fuel m₂ e₂ r₂ hP hp₂)
        _ _ r ⟨⟨s₀, m.m_ctx⟩, rfl, hmem⟩ hs
    · rw [if_neg hmem] at hs
      cases hs
  · intro fuel m es r hl hc
    exact chain_pres (live_ok T) _
      (fun m₂ e₂ r₂ hP hp₂ => push_live T act fuel m₂ e₂ r₂ hP hp₂)
      _ _ r hl hc

theorem single_live_state_witness :
    live_ok demo_table ((⟨0, some ⟨1, 0⟩, false⟩ : Machine Nat Nat)) :=
  (single_live_state demo_table demo_act).2.1 2 demo_machine_start 0
    ((⟨0, some ⟨1, 0⟩, false⟩ : Machine Nat Nat), 0)
    ⟨⟨0, 0⟩, rfl, by decide⟩ (by decide)

/-! ### A complete one-transition table (for the size gate) -/

/-- A table with a single transition `0 --0--> 1` whose target is marked
terminal: it is complete, yet the `static_assert(state_count > 1)` gate
rejects it. -/
def one_transition_table : List (transition Nat Nat) := [⟨0, 0, 1⟩]

def one_transition_terminal : Nat → Bool := fun s => s == 1

/-- C6: evaluation of the construction gates at a complete one-transition
table: the exhaustiveness check passes and the table is nonempty
(`state_count = 1`), yet construction fails, because the size gate is
`state_count > 1` — contradicting both the claim ("any table containing
at least one element") and the gate's own message
(`"no state transitions in table"`). -/
theorem single_transition_table_rejected :
    check_all_transitions one_transition_terminal (states one_transition_table)
        (events one_transition_table) one_transition_table = true
    ∧ state_count one_transition_table = 1
    ∧ construction_ok one_transition_terminal one_transition_table = false := by
  decide

/-- C7: the derived `states` is the order-stable, first-occurrence
de-duplication of every state kind appearing in an `entry_state` or
`next_state` position (all entry states in declaration order, then all
next states), and the derived `events` likewise for the `event` position;
membership is exactly "appears as a from or to" (so a kind that only ever
appears as `entry_state` is still in `states`), and both lists are
duplicate-free. -/
theorem derived_sets_first_occurrence (T : List (transition σ ε)) :
    states T = spec_dedup (extract_states T)
    ∧ events T = spec_dedup (extract_events T)
    ∧ (∀ a : σ, a ∈ states T ↔ ∃ t ∈ T, t.entry_state = a ∨ t.next_state = a)
    ∧ (∀ e : ε, e ∈ events T ↔ ∃ t ∈ T, t.event = e)
    ∧ (states T).Nodup ∧ (events T).Nodup :=
  ⟨remove_duplicates_eq_spec_dedup (extract_states T),
   remove_duplicates_eq_spec_dedup (extract_events T),
   mem_states_iff T, mem_events_iff T,
   nodup_remove_duplicates (extract_states T),
   nodup_remove_duplicates (extract_events T)⟩

theorem derived_sets_first_occurrence_witness :
    states demo_table = spec_dedup (extract_states demo_table)
    ∧ (0 ∈ states demo_table
        ↔ ∃ t ∈ demo_table, t.entry_state = 0 ∨ t.next_state = 0) :=
  ⟨(derived_sets_first_occurrence demo_table).1,
   (derived_sets_first_occurrence demo_table).2.2.1 0⟩

/-- A machine whose live state is the terminal-marked `connected`
(kind 2): the machine has already been started. -/
def demo_machine_connected : Machine Nat Nat := ⟨0, some ⟨2, 0⟩, false⟩

/-- C8 counterexample: calling `start` a second time on an
already-started engine is not a detected error — it succeeds, silently
replacing the live state (here, the machine is restarted at kind 0). -/
theorem second_start_not_rejected :
    start demo_table demo_act (fun _ => []) 1 0 demo_machine_connected
      = some (demo_machine_start, 0) := by
  decide

/-- C8 (amended): starting with a state kind that is not a member of the
derived `states` fails (in the source this does not compile:
`std::get<StartState>` requires an alternative of `states`), and a
dispatch before any `start` fails (`m_state.value()` on an empty
optional); but a second `start` is not detected as an error: it behaves
exactly as a first `start` on a machine with no live state, silently
discarding the current one. -/
theorem start_gating (T : List (transition σ ε)) (act : σ → γ → ε → List ε)
    (actStart : γ → List ε) (fuel : Nat) (s₀ : σ) (m : Machine σ γ) :
    (s₀ ∉ states T → start T act actStart fuel s₀ m = none)
    ∧ (m.m_state = none → ∀ e, push T act fuel m e = none)
    ∧ start T act actStart fuel s₀ m
        = start T act actStart fuel s₀ { m with m_state := none } := by
  refine ⟨?_, ?_, rfl⟩
  · intro h
    rw [start, if_neg h]
  · intro hm e
    cases fuel with
    | zero => exact push_zero T act m e
    | succ fuel => exact push_succ_unstarted T act fuel m e hm

theorem start_gating_witness :
    start demo_table demo_act (fun _ => []) 1 9 demo_machine_start = none :=
  (start_gating demo_table demo_act (fun _ => []) 1 9 demo_machine_start).1
    (by decide)

/-- C10: `m_cb` is default-constructed empty and no engine operation ever
assigns it: the constructor leaves it empty, and `push`/`start` preserve
it; consequently, from any machine whose `m_cb` is empty, a dispatch —
in particular one that finds no matching transition — invokes the
completion callback zero times. -/
theorem completion_callback_never_invoked (T : List (transition σ ε))
    (act : σ → γ → ε → List ε) :
    (∀ c : γ, (state_machine_init c : Machine σ γ).m_cb = false)
    ∧ (∀ (fuel : Nat) (m : Machine σ γ) (e : ε) r,
        push T act fuel m e = some r →
        r.1.m_cb = m.m_cb ∧ (m.m_cb = false → r.2 = 0))
    ∧ (∀ (actStart : γ → List ε) (fuel : Nat) (s₀ : σ) (m : Machine σ γ) r,
        start T act actStart fuel s₀ m = some r →
        r.1.m_cb = m.m_cb ∧ (m.m_cb = false → r.2 = 0)) := by
  refine ⟨fun c => rfl, push_cb T act, ?_⟩
  intro actStart fuel s₀ m r hs
  rw [start] at hs
  by_cases hmem : s₀ ∈ states T
  · rw [if_pos hmem] at hs
    have h := chain_cb (fun m₂ e₂ => push T act fuel m₂ e₂)
      (fun m₂ e₂ r₂ h₂ => push_cb T act fuel m₂ e₂ r₂ h₂) _ _ r hs
    exact h
  · rw [if_neg hmem] at hs
    cases hs

theorem completion_callback_never_invoked_witness :
    ((⟨0, some ⟨1, 0⟩, false⟩ : Machine Nat Nat)).m_cb = demo_machine_start.m_cb
    ∧ (demo_machine_start.m_cb = false → (0 : Nat) = 0) :=
  (completion_callback_never_invoked demo_table demo_act).2.1 2
    demo_machine_start 0 ((⟨0, some ⟨1, 0⟩, false⟩ : Machine Nat Nat), 0)
    (by decide)


/-! ### Classifying the export's lines (for C9) -/

/-- Recognises a rendered edge line of the Mermaid export. -/
def is_edge : MermaidLine σ ε → Bool
  | MermaidLine.edge _ _ _ => true
  | _ => false

/-- Recognises a terminal-marker line of the Mermaid export. -/
def is_terminal_mark : MermaidLine σ ε → Bool
  | MermaidLine.terminal_mark _ => true
  | _ => false

lemma filter_is_edge_transitions (T : List (transition σ ε)) :
    (print_mermaid_transitions T).filter is_edge = print_mermaid_transitions T := by
  rw [print_mermaid_transitions, List.filter_map]
  have h : (is_edge ∘ fun t : transition σ ε =>
      MermaidLine.edge t.entry_state t.event t.next_state) = fun _ => true := by
    funext t; rfl
  rw [h, List.filter_true]

lemma filter_is_edge_terminal (term : σ → Bool) (ss : List σ) :
    (print_terminal_states_mermaid (ε := ε) term ss).filter is_edge = [] := by
  rw [print_terminal_states_mermaid, List.filter_map]
  have h : (is_edge ∘ (MermaidLine.terminal_mark : σ → MermaidLine σ ε))
      = fun _ => false := by
    funext s; rfl
  rw [h, List.filter_false, List.map_nil]

lemma filter_is_terminal_transitions (T : List (transition σ ε)) :
    (print_mermaid_transitions T).filter is_terminal_mark = [] := by
  rw [print_mermaid_transitions, List.filter_map]
  have h : (is_terminal_mark ∘ fun t : transition σ ε =>
      MermaidLine.edge t.entry_state t.event t.next_state) = fun _ => false := by
    funext t; rfl
  rw [h, List.filter_false, List.map_nil]

lemma filter_is_terminal_terminal (term : σ → Bool) (ss : List σ) :
    (print_terminal_states_mermaid (ε := ε) term ss).filter is_terminal_mark
      = print_terminal_states_mermaid (ε := ε) term ss := by
  rw [print_terminal_states_mermaid, List.filter_map]
  have h : (is_terminal_mark ∘ (MermaidLine.terminal_mark : σ → MermaidLine σ ε))
      = fun _ => true := by
    funext s; rfl
  rw [h, List.filter_true]

lemma count_terminal_mark_transitions (T : List (transition σ ε)) (s : σ) :
    (print_mermaid_transitions T).count (MermaidLine.terminal_mark s) = 0 := by
  rw [List.count_eq_zero]
  intro hmem
  rw [print_mermaid_transitions] at hmem
  obtain ⟨t, _, habs⟩ := List.mem_map.mp hmem
  cases habs

lemma terminal_mark_injective :
    Function.Injective (MermaidLine.terminal_mark : σ → MermaidLine σ ε) := by
  intro a b hab
  simpa using hab

/-- C9: the Mermaid export contains exactly the edge lines of the table —
one line per declared transition, in declaration order, and no edge line
for any triple not in the table — and exactly one terminal-marker line
per terminal-marked state of the derived `states` (none for any other
state); everything is computed from the already-derived table data. -/
theorem print_mermaid_fidelity (term : σ → Bool) (T : List (transition σ ε)) :
    (print_mermaid term T).filter is_edge = print_mermaid_transitions T
    ∧ (∀ (a : σ) (e : ε) (b : σ),
        MermaidLine.edge a e b ∈ print_mermaid term T → transition.mk a e b ∈ T)
    ∧ (∀ s : σ, (print_mermaid term T).count (MermaidLine.terminal_mark s)
        = if s ∈ states T ∧ term s = true then 1 else 0)
    ∧ (print_mermaid term T).filter is_terminal_mark
        = ((states T).filter term).map MermaidLine.terminal_mark := by
  have hA : (print_mermaid term T).filter is_edge = print_mermaid_transitions T := by
    rw [print_mermaid, List.filter_append, List.filter_append,
      List.filter_append, filter_is_edge_transitions]
    have h2 : ((if 0 < (states T).length
        then print_terminal_states_mermaid (ε := ε) term (states T)
        else []) : List (MermaidLine σ ε)).filter is_edge = [] := by
      split
      · exact filter_is_edge_terminal term (states T)
      · rfl
    rw [h2]
    simp [is_edge]
  refine ⟨hA, ?_, ?_, ?_⟩
  · intro a e b hmem
    have h2 : MermaidLine.edge a e b ∈ (print_mermaid term T).filter is_edge :=
      List.mem_filter.mpr ⟨hmem, rfl⟩
    rw [hA, print_mermaid_transitions] at h2
    obtain ⟨t, ht, heq⟩ := List.mem_map.mp h2
    cases t
    simp only [MermaidLine.edge.injEq] at heq
    obtain ⟨hq1, hq2, hq3⟩ := heq
    subst hq1; subst hq2; subst hq3
    exact ht
  · intro s
    rw [print_mermaid]
    rw [List.count_append, List.count_append, List.count_append,
      count_terminal_mark_transitions]
    have h1 : List.count (MermaidLine.terminal_mark s)
        ([MermaidLine.header, MermaidLine.init_marker] : List (MermaidLine σ ε))
        = 0 := rfl
    have h4 : List.count (MermaidLine.terminal_mark s)
        ([MermaidLine.footer] : List (MermaidLine σ ε)) = 0 := rfl
    rw [h1, h4]
    by_cases hlen : 0 < (states T).length
    · rw [if_pos hlen, print_terminal_states_mermaid,
        List.count_map_of_injective _ _ terminal_mark_injective]
      have hnd : (List.filter term (states T)).Nodup :=
        List.Nodup.filter term (nodup_remove_duplicates (extract_states T))
      by_cases hmem : s ∈ (states T).filter term
      · obtain ⟨hs, hterm⟩ := List.mem_filter.mp hmem
        rw [List.count_eq_one_of_mem hnd hmem, if_pos ⟨hs, hterm⟩]
      · have hnot : ¬(s ∈ states T ∧ term s = true) := fun hand =>
          hmem (List.mem_filter.mpr ⟨hand.1, hand.2⟩)
        rw [List.count_eq_zero.mpr hmem, if_neg hnot]
    · rw [if_neg hlen]
      have hnil : states T = [] :=
        List.eq_nil_of_length_eq_zero (Nat.eq_zero_of_not_pos hlen)
      have hnot : ¬(s ∈ states T ∧ term s = true) := by
        intro hand
        have hs := hand.1
        rw [hnil] at hs
        cases hs
      rw [if_neg hnot, List.count_nil]
  · rw [print_mermaid, List.filter_append, List.filter_append,
      List.filter_append, filter_is_terminal_transitions]
    by_cases hlen : 0 < (states T).length
    · rw [if_pos hlen, filter_is_terminal_terminal, print_terminal_states_mermaid]
      simp [is_terminal_mark]
    · rw [if_neg hlen]
      have hnil : states T = [] :=
        List.eq_nil_of_length_eq_zero (Nat.eq_zero_of_not_pos hlen)
      rw [hnil]
      simp [is_terminal_mark]

theorem print_mermaid_fidelity_witness :
    (print_mermaid demo_terminal demo_table).count (MermaidLine.terminal_mark 3)
      = if 3 ∈ states demo_table ∧ demo_terminal 3 = true then 1 else 0 :=
  (print_mermaid_fidelity demo_terminal demo_table).2.2.1 3

end Fsm
